import Mathlib

/-!
# Verification of the typo-ime fuzzy-search engine

Shallow embedding of `src/TypoSM.js` (worker-side fuzzy search engine) and
`src/TypoAPI.js` (client-side correlation layer), with proofs of the spec's
claims about them.

Modelling conventions:
* JS strings are Lean `String`s (lists of characters); `.length` agrees for
  the BMP characters the dictionary uses.
* JS numbers used as scores/probabilities are modelled as `ℚ` (the code only
  adds, divides and compares them).
* JS objects used as maps are association lists (`List (key × value)`); a
  missing property is `none`.
* `Array.prototype.sort` with a consistent comparator is modelled by the
  stable `List.mergeSort` (ES2019 requires sort stability).
-/

/-- Row `j + 1` of the dynamic-programming matrix filled by
`levenshteinDistance` in `src/TypoSM.js`, given the previous row `j`
(`prev`): entry `i = 0` is `j + 1`, and entry `i + 1` is
`min(matrix[j+1][i] + 1, matrix[j][i+1] + 1, matrix[j][i] + cost)` with
`cost = (a[i] === b[j] ? 0 : 1)` — exactly the inner loop of the source. -/
def levDAux (a b : List Char) (prev : Nat → Nat) (j : Nat) : Nat → Nat
  | 0 => j + 1
  | i + 1 =>
    min (min (levDAux a b prev j i + 1) (prev (i + 1) + 1))
      (prev i + (if a.getD i 'a' = b.getD j 'a' then 0 else 1))

/-- Entry `matrix[j][i]` of the dynamic-programming matrix filled by
`levenshteinDistance` in `src/TypoSM.js`, computed row by row:
row `0` is `matrix[0][i] = i`, and each later row is filled by `levDAux`
from the previous one (the outer loop of the source). -/
def levD (a b : List Char) : Nat → Nat → Nat
  | 0 => fun i => i
  | j + 1 => levDAux a b (levD a b j) j

/-- `levenshteinDistance(a, b)` from `src/TypoSM.js`: the bottom-right corner
`matrix[b.length][a.length]` of the dynamic-programming matrix. -/
def levenshteinDistance (a b : String) : Nat :=
  levD a.data b.data b.data.length a.data.length

/-- Head-recursive presentation of the Levenshtein distance; proved equal to
the matrix corner (`levD`) below, and the convenient form for induction. -/
def levRec : List Char → List Char → Nat
  | [], b => b.length
  | a, [] => a.length
  | x :: a, y :: b =>
    min (min (levRec a (y :: b) + 1) (levRec (x :: a) b + 1))
      (levRec a b + (if x = y then 0 else 1))

/-- One edit operation (deletion, insertion or substitution of a single
character at an arbitrary position). -/
inductive EditStep : List Char → List Char → Prop
  | del (u v : List Char) (x : Char) : EditStep (u ++ x :: v) (u ++ v)
  | ins (u v : List Char) (x : Char) : EditStep (u ++ v) (u ++ x :: v)
  | sub (u v : List Char) (x y : Char) : EditStep (u ++ x :: v) (u ++ y :: v)

/-- A sequence of `n` edit operations transforming one string into another. -/
inductive EditChain : Nat → List Char → List Char → Prop
  | refl (a : List Char) : EditChain 0 a a
  | step {n : Nat} {a c b : List Char} (h : EditStep a c)
      (hc : EditChain n c b) : EditChain (n + 1) a b

/-- A dictionary record: the two optional string fields read by the engine.
A JS property that is absent or not a string is `none` (the code's
`typeof target !== 'string'` check). The derived `searchable_*` properties
are recomputed on demand via `searchable` below instead of being stored;
within an index bucket they always exist and agree with the stored value. -/
structure Rec where
  pinyin : Option String
  hanzi : Option String
deriving DecidableEq

/-- `record[key]` for the two processed keys. -/
def fieldGet (r : Rec) (key : String) : Option String :=
  if key = "pinyin" then r.pinyin
  else if key = "hanzi" then r.hanzi
  else none

/-- JavaScript `String.prototype.trim()`: strip whitespace from both ends.
Implemented on the character list so that it evaluates by kernel reduction;
`Char.isWhitespace` stands in for the JS WhiteSpace/LineTerminator classes
(they agree on the ASCII whitespace appearing in the data). -/
def jsTrim (s : String) : String :=
  String.mk ((((s.data.dropWhile Char.isWhitespace).reverse).dropWhile
    Char.isWhitespace).reverse)

/-- JavaScript `String.prototype.toLowerCase()`, characterwise
(`Char.toLower` agrees with it on the ASCII range used by the data). -/
def jsToLower (s : String) : String :=
  String.mk (s.data.map Char.toLower)

/-- `target.trim().replace(/[0-9]/g, '').toLowerCase()` from `initialize`. -/
def jsNormalize (s : String) : String :=
  jsToLower (String.mk ((jsTrim s).data.filter (fun c => !c.isDigit)))

/-- The normalized searchable form stored as `record[`searchable_${key}`]`:
`none` when the field is absent, empty, or normalizes to the empty string
(the two `continue`s in `initialize`). -/
def searchable (r : Rec) (key : String) : Option String :=
  match fieldGet r key with
  | none => none
  | some t =>
    if t = "" then none
    else
      let st := jsNormalize t
      if st = "" then none else some st

/-- One length-keyed bucket group `searchIndex[key]`. A missing bucket is the
empty list (iterating a missing bucket and skipping it via `if (!bucket)
continue` are indistinguishable). -/
def LenIndex : Type := Nat → List Rec

/-- `searchIndex[key][len].push(record)` (creating the bucket on first use). -/
def addRecordAt (f : LenIndex) (len : Nat) (r : Rec) : LenIndex :=
  fun n => if n = len then f n ++ [r] else f n

/-- The `searchIndex` object built by `initialize`:
`{ pinyin: {len: [...]}, hanzi: {len: [...]} }`. -/
structure SearchIndex where
  pinyin : LenIndex
  hanzi : LenIndex

/-- The body of the indexing loop of `initialize` for one record: for each of
the keys `pinyin`, `hanzi` (in that order), normalize and, when non-empty,
push the record onto `searchIndex[key][length]`. -/
def indexRecord (si : SearchIndex) (r : Rec) : SearchIndex :=
  let si1 :=
    match searchable r "pinyin" with
    | some st => { si with pinyin := addRecordAt si.pinyin st.length r }
    | none => si
  match searchable r "hanzi" with
  | some st => { si1 with hanzi := addRecordAt si1.hanzi st.length r }
  | none => si1

/-- The indexing loop of `initialize` over the whole dictionary, starting from
`searchIndex = { pinyin: {}, hanzi: {} }`. -/
def buildIndex (dict : List Rec) : SearchIndex :=
  dict.foldl indexRecord ⟨fun _ => [], fun _ => []⟩

/-- Property lookup `searchIndex[key]` on the initialized index object:
defined only for the two recognized field names. -/
def getGroup (si : SearchIndex) (key : String) : Option LenIndex :=
  if key = "pinyin" then some si.pinyin
  else if key = "hanzi" then some si.hanzi
  else none

/-- The bucket predicate realized by `buildIndex`:
`r` normalizes under `key` to a string of length `len`. -/
def bucketPred (key : String) (len : Nat) (r : Rec) : Bool :=
  match searchable r key with
  | some st => st.length == len
  | none => false

/-- The bigram probability table `bigramProbabilities`: an object mapping a
prior hanzi string to an object mapping candidate hanzi to probabilities. -/
def Bigrams : Type := List (String × List (String × ℚ))

/-- `bigramProbabilities[p]` (property lookup). -/
def bigramRow (bg : Bigrams) (p : String) : Option (List (String × ℚ)) :=
  List.lookup p bg

/-- The `options` object of `performSearch`; `none` models an omitted
property (picked up by `??` defaults). `lengthTolerance` is a natural
number: the spec types it as an integer and `Math.max(1, qLen - t)` makes a
negative difference and a zero difference indistinguishable. -/
structure SearchOptions where
  key : Option String
  threshold : Option ℚ
  lengthTolerance : Option Nat
deriving DecidableEq

/-- One element of the `results` array of `performSearch`:
`{ item: record, score, bigramScore }`. -/
structure SRes where
  item : Rec
  score : ℚ
  bigramScore : ℚ
deriving DecidableEq

/-- The expression
`hasBigramContext ? bigramProbabilities[previousWordHanzi]?.[hanzi] || 0 : 0`
of `performSearch`, where
`hasBigramContext = !!(previousWordHanzi && bigramProbabilities[previousWordHanzi])`:
zero when the context string is null or empty (falsy) or not a key of the
table, else the row entry for the candidate's hanzi, defaulting to zero. -/
def bigramScoreOf (bg : Bigrams) (previousWordHanzi : Option String)
    (h : String) : ℚ :=
  match previousWordHanzi with
  | none => 0
  | some p =>
    if p = "" then 0
    else
      match bigramRow bg p with
      | none => 0
      | some row => (List.lookup h row).getD 0

/-- The body of the candidate loop of `performSearch` for one `record`:
skip if `record.hanzi` is falsy; compute the Levenshtein distance between the
normalized query and `record[`searchable_${key}`]`; keep the record iff
`score >= threshold`, attaching the bigram score. -/
def scoreRecord (bg : Bigrams) (key : String) (normalizedQuery : String)
    (threshold : ℚ) (previousWordHanzi : Option String) (record : Rec) :
    Option SRes :=
  match record.hanzi with
  | none => none
  | some h =>
    if h = "" then none
    else
      match searchable record key with
      | none => none
      | some target =>
        let distance := levenshteinDistance normalizedQuery target
        let score : ℚ :=
          1 - (distance : ℚ) / (max normalizedQuery.length target.length : ℚ)
        if threshold ≤ score then
          some ⟨record, score, bigramScoreOf bg previousWordHanzi h⟩
        else none

/-- The list of candidate bucket lengths
`max(1, qLen - lengthTolerance), ..., qLen + lengthTolerance`
iterated by the main loop of `performSearch`. -/
def lensRange (lo hi : Nat) : List Nat :=
  List.range' lo (hi + 1 - lo)

/-- The unsorted `results` array accumulated by the two nested loops of
`performSearch`. -/
def gatherResults (bg : Bigrams) (lenIdx : LenIndex) (key : String)
    (normalizedQuery : String) (threshold : ℚ) (lengthTolerance : Nat)
    (previousWordHanzi : Option String) : List SRes :=
  let queryLength := normalizedQuery.length
  (lensRange (max 1 (queryLength - lengthTolerance))
      (queryLength + lengthTolerance)).flatMap
    (fun len =>
      (lenIdx len).filterMap
        (scoreRecord bg key normalizedQuery threshold previousWordHanzi))

/-- The sort comparator of `performSearch` as a boolean "may come before"
relation: `a` may precede `b` iff `compare(a, b) <= 0`, i.e. `b.score <
a.score`, or the scores are equal and `b.bigramScore <= a.bigramScore`. -/
def resLE (a b : SRes) : Bool :=
  decide (b.score < a.score) ||
    (decide (a.score = b.score) && decide (b.bigramScore ≤ a.bigramScore))

/-- `performSearch(query, options, previousWordHanzi)` from `src/TypoSM.js`,
over an explicit bigram table and `searchIndex` lookup (the module globals).
`searchIndex` maps a field name to its bucket group when present; the
uninitialized worker has `searchIndex = fun _ => none` (the empty object). -/
def performSearch (bg : Bigrams) (searchIndex : String → Option LenIndex)
    (query : String) (options : SearchOptions)
    (previousWordHanzi : Option String) : List SRes :=
  let threshold := options.threshold.getD (3 / 5 : ℚ)
  let lengthTolerance := options.lengthTolerance.getD 2
  match options.key with
  | none => []
  | some key =>
    if query = "" then []
    else if key = "" then []
    else
      match searchIndex key with
      | none => []
      | some lenIdx =>
        (gatherResults bg lenIdx key (jsToLower query) threshold lengthTolerance
          previousWordHanzi).mergeSort resLE

/-- `searchIndex` lookup on an initialized worker, as a plain function. -/
def indexOf (dict : List Rec) : String → Option LenIndex :=
  getGroup (buildIndex dict)

/-- Similarity score `1 - distance / Math.max(queryLength, target.length)`
for a normalized query and a candidate's stored searchable form. -/
def simScore (normalizedQuery target : String) : ℚ :=
  1 - (levenshteinDistance normalizedQuery target : ℚ) /
    (max normalizedQuery.length target.length : ℚ)

/-- Client-side state of a `TypoAPI` instance relevant to request
correlation: the `pendingSearches` `Map` (searchId → resolver, in insertion
order) and the `searchIdCounter`. The resolver type `ρ` is abstract. -/
structure ClientState (ρ : Type) where
  pendingSearches : List (Nat × ρ)
  searchIdCounter : Nat

/-- `Map.prototype.get`. -/
def mapGet {ρ : Type} (m : List (Nat × ρ)) (id : Nat) : Option ρ :=
  List.lookup id m

/-- `Map.prototype.set`: replace in place if the key exists, else append. -/
def mapSet {ρ : Type} (m : List (Nat × ρ)) (id : Nat) (v : ρ) :
    List (Nat × ρ) :=
  match m with
  | [] => [(id, v)]
  | (k, w) :: rest =>
    if k = id then (k, v) :: rest else (k, w) :: mapSet rest id v

/-- `Map.prototype.delete`. -/
def mapDelete {ρ : Type} (m : List (Nat × ρ)) (id : Nat) : List (Nat × ρ) :=
  m.eraseP (fun p => p.1 == id)

/-- `TypoAPI.search`: allocate `id = this.searchIdCounter++`, store the
promise resolver under `id` in `pendingSearches`, then post the tagged
`search` message. The result is the state after the store together with the
`searchId` carried by the posted message (so the store happens before the
post by construction). -/
def clientSearch {ρ : Type} (s : ClientState ρ) (resolve : ρ) :
    ClientState ρ × Nat :=
  let id := s.searchIdCounter
  (⟨mapSet s.pendingSearches id resolve, id + 1⟩, id)

/-- `TypoAPI._handleSearchResult` on a `search_results` message: look up the
message's `searchId`; if a resolver is pending, invoke it with the message's
`results` and delete the entry, else do nothing. Returns the new state and
the invoked resolver paired with the results passed to it (if any). -/
def handleSearchResult {ρ : Type} (s : ClientState ρ) (results : List SRes)
    (searchId : Nat) : ClientState ρ × Option (ρ × List SRes) :=
  match mapGet s.pendingSearches searchId with
  | some cb =>
    (⟨mapDelete s.pendingSearches searchId, s.searchIdCounter⟩,
      some (cb, results))
  | none => (s, none)

/-- Invariant maintained by the client: every pending id was allocated by an
earlier `clientSearch`, hence lies below the counter, and pending ids are
pairwise distinct (as the keys of a `Map` are). -/
def ClientWF {ρ : Type} (s : ClientState ρ) : Prop :=
  (∀ p ∈ s.pendingSearches, p.1 < s.searchIdCounter) ∧
    (s.pendingSearches.map Prod.fst).Nodup

/-- Worker-global mutable state of `TypoSM.js`: `dictionary`,
`bigramProbabilities` and `searchIndex`. Before any successful `init` the
module has `dictionary = []`, `bigramProbabilities = {}` and
`searchIndex = {}` — an object with no bucket group under any key. -/
structure WorkerState where
  dictionary : List Rec
  bigramProbabilities : Bigrams
  searchIndex : String → Option LenIndex

/-- The module state before any successful `init`. -/
def initialWorker : WorkerState := ⟨[], [], fun _ => none⟩

/-- A message received by `self.onmessage`. An `init` message carries the
outcome of the two `fetch`+`json()` calls it triggers (the data is supplied
by the environment); a failed load throws before the module state is
mutated. -/
inductive InMsg where
  | init (outcome : Except String (List Rec × Bigrams))
  | search (query : String) (options : SearchOptions)
      (previousWordHanzi : Option String) (searchId : Nat)

/-- A message posted by the worker via `self.postMessage`. -/
inductive OutMsg where
  | initSuccess
  | initError (error : String)
  | searchResults (results : List SRes) (searchId : Nat)
deriving DecidableEq

/-- The `self.onmessage` dispatcher of `TypoSM.js`: on `init`, run
`initialize` unconditionally (there is no already-initialized guard) and
post `init_success` or `init_error`; on `search`, run `performSearch` on the
current globals and always post `search_results` echoing the `searchId`. -/
def stepMsg (s : WorkerState) (m : InMsg) : WorkerState × List OutMsg :=
  match m with
  | .init (.ok (dict, bg)) =>
    (⟨dict, bg, getGroup (buildIndex dict)⟩, [.initSuccess])
  | .init (.error e) => (s, [.initError e])
  | .search q opts prev id =>
    (s, [.searchResults
      (performSearch s.bigramProbabilities s.searchIndex q opts prev) id])

/-- Sequential processing of a list of messages by the worker. -/
def runWorker (s : WorkerState) : List InMsg → WorkerState × List OutMsg
  | [] => (s, [])
  | m :: ms =>
    let p1 := stepMsg s m
    let p2 := runWorker p1.1 ms
    (p2.1, p1.2 ++ p2.2)

/-- An `init` message whose load succeeded. -/
def isOkInit : InMsg → Prop
  | .init (.ok _) => True
  | _ => False

theorem levD_zero (a b : List Char) (i : Nat) : levD a b 0 i = i := rfl

theorem levD_succ_zero (a b : List Char) (j : Nat) :
    levD a b (j + 1) 0 = j + 1 := rfl

theorem levD_succ_succ (a b : List Char) (j i : Nat) :
    levD a b (j + 1) (i + 1) =
      min (min (levD a b (j + 1) i + 1) (levD a b j (i + 1) + 1))
        (levD a b j i + (if a.getD i 'a' = b.getD j 'a' then 0 else 1)) :=
  rfl

theorem levRec_nil_left (b : List Char) : levRec [] b = b.length := by
  cases b <;> simp [levRec]

theorem levRec_nil_right (a : List Char) : levRec a [] = a.length := by
  cases a <;> simp [levRec]

theorem levRec_cons_cons (x y : Char) (a b : List Char) :
    levRec (x :: a) (y :: b) =
      min (min (levRec a (y :: b) + 1) (levRec (x :: a) b + 1))
        (levRec a b + (if x = y then 0 else 1)) := by
  simp [levRec]

theorem levRec_self (a : List Char) : levRec a a = 0 := by
  induction a with
  | nil => simp [levRec]
  | cons x a ih => simp [levRec_cons_cons, ih]

theorem levRec_comm (a b : List Char) : levRec a b = levRec b a := by
  induction a generalizing b with
  | nil => simp [levRec_nil_left, levRec_nil_right]
  | cons x a iha =>
    induction b with
    | nil => simp [levRec_nil_left, levRec_nil_right]
    | cons y b ihb =>
      rw [levRec_cons_cons, levRec_cons_cons, iha (y :: b), ihb, iha b]
      have hxy : (if x = y then 0 else 1) = (if y = x then 0 else 1) := by
        by_cases h : x = y <;> simp [h, Ne.symm, eq_comm]
      omega

theorem levRec_le_max (a b : List Char) :
    levRec a b ≤ max a.length b.length := by
  induction a generalizing b with
  | nil => simp [levRec_nil_left]
  | cons x a ih =>
    cases b with
    | nil => simp [levRec_nil_right]
    | cons y b =>
      have h3 := ih b
      have : levRec (x :: a) (y :: b) ≤ levRec a b + 1 := by
        rw [levRec_cons_cons]
        have : (if x = y then 0 else 1) ≤ 1 := by split <;> omega
        omega
      simp only [List.length_cons]
      omega

theorem levRec_cons_left_le (x : Char) (a b : List Char) :
    levRec (x :: a) b ≤ levRec a b + 1 := by
  cases b with
  | nil => simp [levRec_nil_right]
  | cons y b => rw [levRec_cons_cons]; omega

theorem levRec_cons_right_le (y : Char) (a b : List Char) :
    levRec a (y :: b) ≤ levRec a b + 1 := by
  cases a with
  | nil => simp [levRec_nil_left]
  | cons x a => rw [levRec_cons_cons]; omega

theorem levRec_le_cons_left (x : Char) (a b : List Char) :
    levRec a b ≤ levRec (x :: a) b + 1 := by
  induction b generalizing a with
  | nil => simp [levRec_nil_right]; omega
  | cons y b ih =>
    rw [levRec_cons_cons x y a b]
    have h1 : levRec a (y :: b) ≤ levRec a b + 1 := levRec_cons_right_le y a b
    have h2 : levRec a b ≤ levRec (x :: a) b + 1 := ih a
    have h3 : (0:Nat) ≤ (if x = y then 0 else 1) := Nat.zero_le _
    omega

theorem levRec_le_cons_right (y : Char) (a b : List Char) :
    levRec a b ≤ levRec a (y :: b) + 1 := by
  rw [levRec_comm a b, levRec_comm a (y :: b)]
  exact levRec_le_cons_left y b a

theorem levRec_sub_left_le (x y : Char) (a b : List Char) :
    levRec (x :: a) b ≤ levRec (y :: a) b + 1 := by
  induction b with
  | nil => simp [levRec_nil_right]
  | cons z b ih =>
    rw [levRec_cons_cons x z a b, levRec_cons_cons y z a b]
    have hx : (if x = z then 0 else 1) ≤ 1 := by split <;> omega
    have hy : (0:Nat) ≤ (if y = z then 0 else 1) := Nat.zero_le _
    omega

/-- If shortening/altering the first argument changes `levRec` by at most `k`
uniformly in the second argument, the same bound survives a common head. -/
theorem levRec_cons_mono (c : Char) (s t : List Char) (k : Nat)
    (h : ∀ b, levRec s b ≤ k + levRec t b) :
    ∀ b, levRec (c :: s) b ≤ k + levRec (c :: t) b := by
  intro b
  induction b with
  | nil =>
    have := h []
    simp only [levRec_nil_right, List.length_cons] at this ⊢
    omega
  | cons z b ih =>
    rw [levRec_cons_cons c z s b, levRec_cons_cons c z t b]
    have h1 := h (z :: b)
    have h2 := h b
    omega

theorem levRec_middle_del (u v : List Char) (x : Char) :
    ∀ b, levRec (u ++ x :: v) b ≤ 1 + levRec (u ++ v) b := by
  induction u with
  | nil =>
    intro b
    have := levRec_cons_left_le x v b
    simpa [Nat.add_comm] using this
  | cons c u ih => exact levRec_cons_mono c (u ++ x :: v) (u ++ v) 1 ih

theorem levRec_middle_ins (u v : List Char) (x : Char) :
    ∀ b, levRec (u ++ v) b ≤ 1 + levRec (u ++ x :: v) b := by
  induction u with
  | nil =>
    intro b
    have := levRec_le_cons_left x v b
    simpa [Nat.add_comm] using this
  | cons c u ih => exact levRec_cons_mono c (u ++ v) (u ++ x :: v) 1 ih

theorem levRec_middle_sub (u v : List Char) (x y : Char) :
    ∀ b, levRec (u ++ x :: v) b ≤ 1 + levRec (u ++ y :: v) b := by
  induction u with
  | nil =>
    intro b
    have := levRec_sub_left_le x y v b
    simpa [Nat.add_comm] using this
  | cons c u ih => exact levRec_cons_mono c (u ++ x :: v) (u ++ y :: v) 1 ih

theorem levRec_le_of_editStep {a c : List Char} (h : EditStep a c) :
    ∀ b, levRec a b ≤ 1 + levRec c b := by
  cases h with
  | del u v x => exact levRec_middle_del u v x
  | ins u v x => exact levRec_middle_ins u v x
  | sub u v x y => exact levRec_middle_sub u v x y

/-- Soundness: an `n`-step edit chain bounds the distance by `n`. -/
theorem levRec_le_of_editChain {n : Nat} {a b : List Char}
    (h : EditChain n a b) : levRec a b ≤ n := by
  induction h with
  | refl a => simp [levRec_self]
  | step hs hc ih =>
    rename_i k a1 mid b1
    have h2 := levRec_le_of_editStep hs b1
    omega

theorem editStep_consHead {s t : List Char} (c : Char) (h : EditStep s t) :
    EditStep (c :: s) (c :: t) := by
  cases h with
  | del u v x => exact EditStep.del (c :: u) v x
  | ins u v x => exact EditStep.ins (c :: u) v x
  | sub u v x y => exact EditStep.sub (c :: u) v x y

theorem editChain_consHead {n : Nat} {s t : List Char} (c : Char)
    (h : EditChain n s t) : EditChain n (c :: s) (c :: t) := by
  induction h with
  | refl a => exact EditChain.refl (c :: a)
  | step hs _ ih => exact EditChain.step (editStep_consHead c hs) ih

theorem EditChain.append {m n : Nat} {a c b : List Char}
    (h1 : EditChain m a c) (h2 : EditChain n c b) :
    EditChain (m + n) a b := by
  revert h2
  induction h1 with
  | refl a => intro h2; simpa using h2
  | step hs hc ih =>
    intro h2
    rw [Nat.add_right_comm]
    exact EditChain.step hs (ih h2)

theorem editChain_single {a b : List Char} (h : EditStep a b) :
    EditChain 1 a b :=
  EditChain.step h (EditChain.refl b)

theorem EditChain.snoc {n : Nat} {a c b : List Char}
    (h1 : EditChain n a c) (h2 : EditStep c b) : EditChain (n + 1) a b :=
  h1.append (editChain_single h2)

theorem editChain_nil_to (b : List Char) : EditChain b.length [] b := by
  induction b with
  | nil => exact EditChain.refl []
  | cons y b ih =>
    have step : EditStep b (y :: b) := EditStep.ins [] b y
    have : EditChain (b.length + 1) [] (y :: b) := ih.snoc step
    simpa using this

theorem editChain_to_nil (a : List Char) : EditChain a.length a [] := by
  induction a with
  | nil => exact EditChain.refl []
  | cons x a ih =>
    have step : EditStep (x :: a) a := EditStep.del [] a x
    have : EditChain (a.length + 1) (x :: a) [] := EditChain.step step ih
    simpa [Nat.add_comm] using this

/-- Completeness: there is an edit chain of length exactly `levRec a b`. -/
theorem editChain_levRec (a : List Char) : ∀ b, EditChain (levRec a b) a b := by
  induction a with
  | nil =>
    intro b
    rw [levRec_nil_left]
    exact editChain_nil_to b
  | cons x a iha =>
    intro b
    induction b with
    | nil =>
      rw [levRec_nil_right]
      exact editChain_to_nil (x :: a)
    | cons y b ihb =>
      rw [levRec_cons_cons]
      set d1 := levRec a (y :: b) + 1 with hd1
      set d2 := levRec (x :: a) b + 1 with hd2
      set d3 := levRec a b + (if x = y then 0 else 1) with hd3
      have hcases : min (min d1 d2) d3 = d1 ∨ min (min d1 d2) d3 = d2 ∨
          min (min d1 d2) d3 = d3 := by omega
      rcases hcases with h | h | h
      · rw [h, hd1]
        exact EditChain.step (EditStep.del [] a x) (iha (y :: b))
      · rw [h, hd2]
        exact (ihb).snoc (EditStep.ins [] b y)
      · rw [h, hd3]
        by_cases hxy : x = y
        · subst hxy
          simpa using editChain_consHead x (iha b)
        · simp only [hxy, if_false]
          exact EditChain.step (EditStep.sub [] a x y) (editChain_consHead y (iha b))

/-- Triangle inequality for the head-recursive Levenshtein distance. -/
theorem levRec_triangle (a c b : List Char) :
    levRec a b ≤ levRec a c + levRec c b :=
  levRec_le_of_editChain ((editChain_levRec a c).append (editChain_levRec c b))

theorem editStep_rev {a b : List Char} (h : EditStep a b) :
    EditStep a.reverse b.reverse := by
  cases h with
  | del u v x =>
    have h1 : (u ++ x :: v).reverse = v.reverse ++ x :: u.reverse := by
      simp
    have h2 : (u ++ v).reverse = v.reverse ++ u.reverse := by simp
    rw [h1, h2]
    exact EditStep.del v.reverse u.reverse x
  | ins u v x =>
    have h1 : (u ++ x :: v).reverse = v.reverse ++ x :: u.reverse := by
      simp
    have h2 : (u ++ v).reverse = v.reverse ++ u.reverse := by simp
    rw [h1, h2]
    exact EditStep.ins v.reverse u.reverse x
  | sub u v x y =>
    have h1 : (u ++ x :: v).reverse = v.reverse ++ x :: u.reverse := by
      simp
    have h2 : (u ++ y :: v).reverse = v.reverse ++ y :: u.reverse := by
      simp
    rw [h1, h2]
    exact EditStep.sub v.reverse u.reverse x y

theorem editChain_rev {n : Nat} {a b : List Char} (h : EditChain n a b) :
    EditChain n a.reverse b.reverse := by
  induction h with
  | refl a => exact EditChain.refl a.reverse
  | step hs hc ih => exact EditChain.step (editStep_rev hs) ih

theorem levRec_reverse (a b : List Char) :
    levRec a.reverse b.reverse = levRec a b := by
  have h1 : levRec a.reverse b.reverse ≤ levRec a b :=
    levRec_le_of_editChain (editChain_rev (editChain_levRec a b))
  have h2 : levRec a b ≤ levRec a.reverse b.reverse := by
    have := levRec_le_of_editChain (editChain_rev (editChain_levRec a.reverse b.reverse))
    simpa using this
  omega

theorem take_succ_reverse {l : List Char} {i : Nat} (h : i < l.length) :
    (l.take (i + 1)).reverse = l[i] :: (l.take i).reverse := by
  rw [List.take_succ]
  simp [List.getElem?_eq_getElem h]

/-- The DP matrix entry `matrix[j][i]` is the Levenshtein distance between the
length-`i` prefix of `a` and the length-`j` prefix of `b` (stated via
`levRec` on the reversed prefixes, which is the form the recurrence matches). -/
theorem levD_eq (a b : List Char) :
    ∀ j, j ≤ b.length → ∀ i, i ≤ a.length →
      levD a b j i = levRec ((a.take i).reverse) ((b.take j).reverse) := by
  intro j
  induction j with
  | zero =>
    intro _ i hi
    have h1 : levD a b 0 i = i := levD_zero a b i
    rw [h1, List.take_zero, List.reverse_nil, levRec_nil_right]
    simp [Nat.min_eq_left hi]
  | succ j ihj =>
    intro hj i
    induction i with
    | zero =>
      intro _
      have h1 : levD a b (j + 1) 0 = j + 1 := levD_succ_zero a b j
      rw [h1, List.take_zero, List.reverse_nil, levRec_nil_left]
      simp [Nat.min_eq_left hj]
    | succ i ihi =>
      intro hi
      have hi' : i < a.length := by omega
      have hj' : j < b.length := by omega
      have e1 := ihi (by omega)
      have e2 := ihj (by omega) (i + 1) hi
      have e3 := ihj (by omega) i (by omega)
      rw [levD_succ_succ]
      rw [e1, e2, e3, take_succ_reverse hi', take_succ_reverse hj',
        levRec_cons_cons]
      have hga : a.getD i 'a' = a[i] := List.getD_eq_getElem a 'a' hi'
      have hgb : b.getD j 'a' = b[j] := List.getD_eq_getElem b 'a' hj'
      rw [hga, hgb]

/-- The code's DP implementation computes the Levenshtein distance in its
head-recursive form. -/
theorem levenshteinDistance_eq_levRec (a b : String) :
    levenshteinDistance a b = levRec a.data b.data := by
  unfold levenshteinDistance
  rw [levD_eq a.data b.data b.data.length le_rfl a.data.length le_rfl]
  rw [List.take_length, List.take_length]
  exact levRec_reverse _ _

theorem levenshteinDistance_comm (a b : String) :
    levenshteinDistance a b = levenshteinDistance b a := by
  rw [levenshteinDistance_eq_levRec, levenshteinDistance_eq_levRec]
  exact levRec_comm _ _

theorem levenshteinDistance_self (a : String) : levenshteinDistance a a = 0 := by
  rw [levenshteinDistance_eq_levRec]
  exact levRec_self _

theorem levenshteinDistance_triangle (a c b : String) :
    levenshteinDistance a b ≤
      levenshteinDistance a c + levenshteinDistance c b := by
  rw [levenshteinDistance_eq_levRec, levenshteinDistance_eq_levRec,
    levenshteinDistance_eq_levRec]
  exact levRec_triangle _ _ _

theorem levenshteinDistance_le_max (a b : String) :
    levenshteinDistance a b ≤ max a.length b.length := by
  rw [levenshteinDistance_eq_levRec]
  exact levRec_le_max _ _

theorem indexRecord_pinyin (si : SearchIndex) (r : Rec) (len : Nat) :
    (indexRecord si r).pinyin len =
      si.pinyin len ++ (if bucketPred "pinyin" len r then [r] else []) := by
  unfold indexRecord bucketPred
  cases hp : searchable r "pinyin" with
  | none =>
    cases hh : searchable r "hanzi" <;> simp [hp, hh]
  | some st =>
    cases hh : searchable r "hanzi" <;>
      · simp only [hp, hh, addRecordAt]
        by_cases hlen : len = st.length
        · simp [hlen]
        · have : ¬ (st.length == len) = true := by
            simp [beq_iff_eq]; omega
          simp [hlen, this]

theorem indexRecord_hanzi (si : SearchIndex) (r : Rec) (len : Nat) :
    (indexRecord si r).hanzi len =
      si.hanzi len ++ (if bucketPred "hanzi" len r then [r] else []) := by
  unfold indexRecord bucketPred
  cases hp : searchable r "pinyin" with
  | none =>
    cases hh : searchable r "hanzi" with
    | none => simp [hp, hh]
    | some st =>
      simp only [hp, hh, addRecordAt]
      by_cases hlen : len = st.length
      · simp [hlen]
      · have : ¬ (st.length == len) = true := by simp [beq_iff_eq]; omega
        simp [hlen, this]
  | some stp =>
    cases hh : searchable r "hanzi" with
    | none => simp [hp, hh]
    | some st =>
      simp only [hp, hh, addRecordAt]
      by_cases hlen : len = st.length
      · simp [hlen]
      · have : ¬ (st.length == len) = true := by simp [beq_iff_eq]; omega
        simp [hlen, this]

theorem buildIndex_go_pinyin (dict : List Rec) :
    ∀ (si : SearchIndex) (len : Nat),
      (dict.foldl indexRecord si).pinyin len =
        si.pinyin len ++ dict.filter (bucketPred "pinyin" len) := by
  induction dict with
  | nil => intro si len; simp
  | cons r dict ih =>
    intro si len
    rw [List.foldl_cons, ih, indexRecord_pinyin]
    by_cases h : bucketPred "pinyin" len r = true <;>
      simp [List.filter_cons, h]

theorem buildIndex_go_hanzi (dict : List Rec) :
    ∀ (si : SearchIndex) (len : Nat),
      (dict.foldl indexRecord si).hanzi len =
        si.hanzi len ++ dict.filter (bucketPred "hanzi" len) := by
  induction dict with
  | nil => intro si len; simp
  | cons r dict ih =>
    intro si len
    rw [List.foldl_cons, ih, indexRecord_hanzi]
    by_cases h : bucketPred "hanzi" len r = true <;>
      simp [List.filter_cons, h]

/-- Bucket contents of the built index: exactly the dictionary records (in
dictionary order) whose normalized form under `key` has length `len`. -/
theorem buildIndex_bucket (dict : List Rec) (key : String) (len : Nat)
    (g : LenIndex) (hkey : getGroup (buildIndex dict) key = some g) :
    g len = dict.filter (bucketPred key len) := by
  unfold getGroup at hkey
  by_cases hp : key = "pinyin"
  · subst hp
    simp only [if_pos rfl] at hkey
    cases hkey
    simpa using buildIndex_go_pinyin dict ⟨fun _ => [], fun _ => []⟩ len
  · by_cases hh : key = "hanzi"
    · subst hh
      simp only [hp, if_neg, if_pos rfl] at hkey
      cases hkey
      simpa using buildIndex_go_hanzi dict ⟨fun _ => [], fun _ => []⟩ len
    · simp [hp, hh] at hkey

theorem scoreRecord_eq_some (bg : Bigrams) (key normalizedQuery : String)
    (threshold : ℚ) (prev : Option String) (r : Rec) (res : SRes) :
    scoreRecord bg key normalizedQuery threshold prev r = some res ↔
      ∃ h target, r.hanzi = some h ∧ h ≠ "" ∧
        searchable r key = some target ∧
        threshold ≤ simScore normalizedQuery target ∧
        res = ⟨r, simScore normalizedQuery target,
          bigramScoreOf bg prev h⟩ := by
  unfold scoreRecord simScore
  cases hh : r.hanzi with
  | none => simp
  | some h =>
    by_cases hempty : h = ""
    · simp [hempty]
    · simp only [hempty, if_neg, if_false]
      cases hs : searchable r key with
      | none => simp
      | some target =>
        by_cases hth :
            threshold ≤ 1 - (levenshteinDistance normalizedQuery target : ℚ) /
              (max normalizedQuery.length target.length : ℚ)
        · simp [hth, hempty, eq_comm]
        · simp [hth, hempty]

theorem mem_lensRange (lo hi len : Nat) :
    len ∈ lensRange lo hi ↔ lo ≤ len ∧ len ≤ hi := by
  unfold lensRange
  rw [List.mem_range'_1]
  omega

theorem mem_gatherResults (bg : Bigrams) (lenIdx : LenIndex) (key : String)
    (normalizedQuery : String) (threshold : ℚ) (lengthTolerance : Nat)
    (prev : Option String) (res : SRes) :
    res ∈ gatherResults bg lenIdx key normalizedQuery threshold
        lengthTolerance prev ↔
      ∃ len, max 1 (normalizedQuery.length - lengthTolerance) ≤ len ∧
        len ≤ normalizedQuery.length + lengthTolerance ∧
        ∃ r ∈ lenIdx len,
          scoreRecord bg key normalizedQuery threshold prev r = some res := by
  unfold gatherResults
  simp only [List.mem_flatMap, List.mem_filterMap, mem_lensRange]
  constructor
  · rintro ⟨len, ⟨h1, h2⟩, r, hr, hs⟩
    exact ⟨len, h1, h2, r, hr, hs⟩
  · rintro ⟨len, h1, h2, r, hr, hs⟩
    exact ⟨len, ⟨h1, h2⟩, r, hr, hs⟩

theorem resLE_total (a b : SRes) : (resLE a b || resLE b a) = true := by
  simp only [resLE, Bool.or_eq_true, Bool.and_eq_true, decide_eq_true_eq]
  rcases lt_trichotomy a.score b.score with h | h | h
  · exact Or.inr (Or.inl h)
  · rcases le_total a.bigramScore b.bigramScore with hb | hb
    · exact Or.inr (Or.inr ⟨h.symm, hb⟩)
    · exact Or.inl (Or.inr ⟨h, hb⟩)
  · exact Or.inl (Or.inl h)

theorem resLE_trans (a b c : SRes) (h1 : resLE a b) (h2 : resLE b c) :
    resLE a c := by
  simp only [resLE, Bool.or_eq_true, Bool.and_eq_true,
    decide_eq_true_eq] at h1 h2 ⊢
  rcases h1 with h1 | ⟨h1, h1b⟩ <;> rcases h2 with h2 | ⟨h2, h2b⟩
  · exact Or.inl (h2.trans h1)
  · exact Or.inl (h2 ▸ h1)
  · exact Or.inl (h1 ▸ h2)
  · exact Or.inr ⟨h1.trans h2, h2b.trans h1b⟩

theorem mem_performSearch (bg : Bigrams)
    (searchIndex : String → Option LenIndex) (query : String)
    (options : SearchOptions) (prev : Option String) (res : SRes)
    (k : String) (lenIdx : LenIndex) (hkey : options.key = some k)
    (hq : query ≠ "") (hk : k ≠ "") (hidx : searchIndex k = some lenIdx) :
    res ∈ performSearch bg searchIndex query options prev ↔
      res ∈ gatherResults bg lenIdx k (jsToLower query)
        (options.threshold.getD (3 / 5 : ℚ))
        (options.lengthTolerance.getD 2) prev := by
  unfold performSearch
  rw [hkey]
  simp [hq, hk, hidx, List.mem_mergeSort]

theorem performSearch_perm (bg : Bigrams)
    (searchIndex : String → Option LenIndex) (query : String)
    (options : SearchOptions) (prev : Option String)
    (k : String) (lenIdx : LenIndex) (hkey : options.key = some k)
    (hq : query ≠ "") (hk : k ≠ "") (hidx : searchIndex k = some lenIdx) :
    performSearch bg searchIndex query options prev =
      (gatherResults bg lenIdx k (jsToLower query)
        (options.threshold.getD (3 / 5 : ℚ))
        (options.lengthTolerance.getD 2) prev).mergeSort resLE := by
  unfold performSearch
  rw [hkey]
  simp [hq, hk, hidx]

theorem mapGet_none_of_forall {ρ : Type} (m : List (Nat × ρ)) (id : Nat)
    (h : ∀ p ∈ m, p.1 ≠ id) : mapGet m id = none := by
  induction m with
  | nil => rfl
  | cons p rest ih =>
    obtain ⟨k, w⟩ := p
    have hk : k ≠ id := h (k, w) (List.mem_cons_self _ _)
    have : ¬ (id == k) = true := by simp [beq_iff_eq]; omega
    simp only [mapGet, List.lookup, this, if_neg, Bool.false_eq_true]
    exact ih (fun p hp => h p (List.mem_cons_of_mem _ hp))

theorem mapSet_fresh {ρ : Type} (m : List (Nat × ρ)) (id : Nat) (v : ρ)
    (h : ∀ p ∈ m, p.1 ≠ id) : mapSet m id v = m ++ [(id, v)] := by
  induction m with
  | nil => rfl
  | cons p rest ih =>
    obtain ⟨k, w⟩ := p
    have hk : k ≠ id := h (k, w) (List.mem_cons_self _ _)
    simp only [mapSet, hk, if_neg, if_false, List.cons_append,
      List.cons.injEq, true_and]
    exact ih (fun p hp => h p (List.mem_cons_of_mem _ hp))

theorem mapGet_append_single {ρ : Type} (m : List (Nat × ρ)) (id : Nat)
    (v : ρ) (h : mapGet m id = none) : mapGet (m ++ [(id, v)]) id = some v := by
  induction m with
  | nil => simp [mapGet, List.lookup]
  | cons p rest ih =>
    obtain ⟨k, w⟩ := p
    by_cases hk : id = k
    · exfalso
      simp [mapGet, List.lookup, hk] at h
    · have hbeq : ¬ (id == k) = true := by simp [beq_iff_eq, hk]
      simp only [mapGet, List.lookup, hbeq, if_neg, Bool.false_eq_true,
        List.cons_append] at h ⊢
      exact ih h

theorem mapGet_mapDelete_self {ρ : Type} (m : List (Nat × ρ)) (id : Nat)
    (hnd : (m.map Prod.fst).Nodup) : mapGet (mapDelete m id) id = none := by
  induction m with
  | nil => rfl
  | cons p rest ih =>
    obtain ⟨k, w⟩ := p
    simp only [List.map_cons, List.nodup_cons] at hnd
    by_cases hk : k = id
    · subst hk
      simp only [mapDelete, List.eraseP_cons, beq_self_eq_true, if_pos]
      apply mapGet_none_of_forall
      intro p hp hpk
      exact hnd.1 (hpk ▸ List.mem_map_of_mem Prod.fst hp)
    · have hbeq : ¬ (k == id) = true := by simp [beq_iff_eq, hk]
      have hbeq2 : ¬ (id == k) = true := by simp [beq_iff_eq]; omega
      simp only [mapDelete, List.eraseP_cons, hbeq, if_neg, Bool.false_eq_true]
      simp only [mapGet, List.lookup, hbeq2, if_neg, Bool.false_eq_true]
      exact ih hnd.2

theorem mapGet_mapDelete_ne {ρ : Type} (m : List (Nat × ρ)) (id j : Nat)
    (hne : j ≠ id) : mapGet (mapDelete m id) j = mapGet m j := by
  induction m with
  | nil => rfl
  | cons p rest ih =>
    obtain ⟨k, w⟩ := p
    by_cases hk : k = id
    · subst hk
      have hbeq2 : ¬ (j == k) = true := by simp [beq_iff_eq]; omega
      simp only [mapDelete, List.eraseP_cons, beq_self_eq_true, cond_true]
      simp only [mapGet, List.lookup, hbeq2, if_neg, Bool.false_eq_true]
    · have hbeq : ¬ (k == id) = true := by simp [beq_iff_eq, hk]
      simp only [mapDelete, List.eraseP_cons, hbeq, if_neg, Bool.false_eq_true]
      by_cases hjk : j = k
      · subst hjk
        simp [mapGet, List.lookup]
      · have hbeq2 : ¬ (j == k) = true := by simp [beq_iff_eq, hjk]
        simp only [mapGet, List.lookup, hbeq2, if_neg, Bool.false_eq_true]
        exact ih

theorem mapDelete_wf {ρ : Type} (s : ClientState ρ) (id : Nat)
    (hwf : ClientWF s) :
    ClientWF ⟨mapDelete s.pendingSearches id, s.searchIdCounter⟩ := by
  obtain ⟨hlt, hnd⟩ := hwf
  constructor
  · intro p hp
    exact hlt p ((List.eraseP_sublist _).subset hp)
  · exact hnd.sublist ((List.eraseP_sublist _).map Prod.fst)

theorem jsToLower_length (s : String) : (jsToLower s).length = s.length := by
  cases s with
  | mk data => simp [jsToLower, String.length]

theorem string_length_pos (s : String) (h : s ≠ "") : 0 < s.length := by
  cases s with
  | mk data =>
    cases data with
    | nil => exact absurd rfl h
    | cons c cs => simp [String.length]

/-- C7: `levenshteinDistance` is a metric on strings: it is symmetric,
vanishes on equal strings and satisfies the triangle inequality; moreover it
is bounded by the longer length, so the similarity score
`1 - distance / max(|a|, |b|)` lies in `[0, 1]` whenever at least one of the
two strings is non-empty. -/
theorem C7_levenshtein_metric :
    (∀ a b : String, levenshteinDistance a b = levenshteinDistance b a) ∧
    (∀ a : String, levenshteinDistance a a = 0) ∧
    (∀ a c b : String, levenshteinDistance a b ≤
      levenshteinDistance a c + levenshteinDistance c b) ∧
    (∀ a b : String, levenshteinDistance a b ≤ max a.length b.length) ∧
    (∀ a b : String, a ≠ "" ∨ b ≠ "" →
      0 ≤ simScore a b ∧ simScore a b ≤ 1) := by
  refine ⟨levenshteinDistance_comm, levenshteinDistance_self,
    levenshteinDistance_triangle, levenshteinDistance_le_max, ?_⟩
  intro a b hne
  have hmax : 0 < max a.length b.length := by
    rcases hne with h | h
    · have := string_length_pos a h
      omega
    · have := string_length_pos b h
      omega
  have hd : levenshteinDistance a b ≤ max a.length b.length :=
    levenshteinDistance_le_max a b
  have hmq : (0 : ℚ) < max ((a.length : ℚ)) ((b.length : ℚ)) := by
    exact_mod_cast hmax
  have hdq : ((levenshteinDistance a b : Nat) : ℚ) ≤
      max ((a.length : ℚ)) ((b.length : ℚ)) := by exact_mod_cast hd
  have hdq0 : (0 : ℚ) ≤ ((levenshteinDistance a b : Nat) : ℚ) := by
    exact_mod_cast Nat.zero_le _
  unfold simScore
  constructor
  · have h1 : ((levenshteinDistance a b : Nat) : ℚ) /
        max ((a.length : ℚ)) ((b.length : ℚ)) ≤ 1 :=
      (div_le_one hmq).mpr hdq
    linarith
  · have h2 : (0 : ℚ) ≤ ((levenshteinDistance a b : Nat) : ℚ) /
        max ((a.length : ℚ)) ((b.length : ℚ)) := div_nonneg hdq0 hmq.le
    linarith

/-- Witness for C7 at a concrete non-empty pair. -/
theorem C7_levenshtein_metric_witness :
    0 ≤ simScore "ni" "na" ∧ simScore "ni" "na" ≤ 1 :=
  C7_levenshtein_metric.2.2.2.2 "ni" "na" (Or.inl (by decide))

/-- C6: after indexing, every dictionary record whose field value is a
non-empty string with a non-empty normalized form appears in exactly one
bucket of that field's group: the bucket keyed by the normalized form's
length. (The statement is per field, so a record empty in one field is
still indexed under the other field when that one is present.) -/
theorem C6_index_completeness (dict : List Rec) (r : Rec) (key : String)
    (st : String) (hmem : r ∈ dict) (hs : searchable r key = some st) :
    ∃ g, getGroup (buildIndex dict) key = some g ∧
      r ∈ g st.length ∧ ∀ len, r ∈ g len → len = st.length := by
  have hkey : key = "pinyin" ∨ key = "hanzi" := by
    by_contra hnot
    push_neg at hnot
    unfold searchable fieldGet at hs
    simp [hnot.1, hnot.2] at hs
  obtain ⟨g, hg⟩ : ∃ g, getGroup (buildIndex dict) key = some g := by
    rcases hkey with h | h <;> subst h
    · exact ⟨(buildIndex dict).pinyin, by simp [getGroup]⟩
    · exact ⟨(buildIndex dict).hanzi, by simp [getGroup]⟩
  refine ⟨g, hg, ?_, ?_⟩
  · rw [buildIndex_bucket dict key st.length g hg, List.mem_filter]
    exact ⟨hmem, by simp [bucketPred, hs]⟩
  · intro len hlen
    rw [buildIndex_bucket dict key len g hg, List.mem_filter] at hlen
    have h2 := hlen.2
    simp only [bucketPred, hs, beq_iff_eq] at h2
    omega

/-- Witness for C6 on a one-record dictionary. -/
theorem C6_index_completeness_witness :
    ∃ g, getGroup (buildIndex [⟨some "ni3", some "N"⟩]) "pinyin" = some g ∧
      (⟨some "ni3", some "N"⟩ : Rec) ∈ g ("ni".length) ∧
      ∀ len, (⟨some "ni3", some "N"⟩ : Rec) ∈ g len → len = "ni".length :=
  C6_index_completeness [⟨some "ni3", some "N"⟩] ⟨some "ni3", some "N"⟩
    "pinyin" "ni" (by decide) (by decide)

/-- Concrete evaluation of a successful search on a one-record dictionary,
used by witnesses: the record scores `1` and is the only result. -/
theorem performSearch_eval_ni :
    performSearch [] (indexOf [⟨some "ni3", some "N"⟩]) "ni"
      ⟨some "pinyin", none, none⟩ none =
      [⟨⟨some "ni3", some "N"⟩, 1, 0⟩] := by
  rw [performSearch_perm [] (indexOf [⟨some "ni3", some "N"⟩]) "ni"
    ⟨some "pinyin", none, none⟩ none "pinyin"
    ((buildIndex [⟨some "ni3", some "N"⟩]).pinyin) rfl (by decide) (by decide)
    rfl]
  have hg : gatherResults [] ((buildIndex [⟨some "ni3", some "N"⟩]).pinyin)
      "pinyin" (jsToLower "ni")
      ((SearchOptions.mk (some "pinyin") none none).threshold.getD ((3:ℚ)/5))
      ((SearchOptions.mk (some "pinyin") none none).lengthTolerance.getD 2)
      none = [⟨⟨some "ni3", some "N"⟩, 1, 0⟩] := by
    with_unfolding_all decide
  rw [hg, List.mergeSort_singleton]

/-- C10: every result returned by `performSearch` carries a record whose
`hanzi` field is present and non-empty, whichever field was searched. -/
theorem C10_results_have_hanzi (bg : Bigrams)
    (searchIndex : String → Option LenIndex) (query : String)
    (options : SearchOptions) (prev : Option String) (res : SRes)
    (hres : res ∈ performSearch bg searchIndex query options prev) :
    ∃ h, res.item.hanzi = some h ∧ h ≠ "" := by
  unfold performSearch at hres
  split at hres
  · simp at hres
  · split at hres
    · simp at hres
    · split at hres
      · simp at hres
      · split at hres
        · simp at hres
        · rw [List.mem_mergeSort, mem_gatherResults] at hres
          obtain ⟨len, _, _, r, hr, hs⟩ := hres
          rw [scoreRecord_eq_some] at hs
          obtain ⟨h, t, hh, hne, _, _, heq⟩ := hs
          subst heq
          exact ⟨h, hh, hne⟩

/-- Witness for C10 on a concrete successful search. -/
theorem C10_results_have_hanzi_witness :
    ∃ h, (SRes.mk ⟨some "ni3", some "N"⟩ 1 0).item.hanzi = some h ∧
      h ≠ "" :=
  C10_results_have_hanzi [] (indexOf [⟨some "ni3", some "N"⟩]) "ni"
    ⟨some "pinyin", none, none⟩ none ⟨⟨some "ni3", some "N"⟩, 1, 0⟩
    (by rw [performSearch_eval_ni]; exact List.mem_singleton_self _)

/-- C3: candidate pruning soundness. Every record returned by a search over
the built index has a normalized-field length within
`[max(1, qLen - lengthTolerance), qLen + lengthTolerance]`; in particular
with `lengthTolerance = 0` only candidates of exactly the query's length are
returned (so a length-`qLen + 1` candidate is excluded no matter its
score). -/
theorem C3_pruning_sound (dict : List Rec) (bg : Bigrams) (query : String)
    (options : SearchOptions) (prev : Option String) (res : SRes)
    (k : String) (hkey : options.key = some k)
    (hres : res ∈ performSearch bg (indexOf dict) query options prev) :
    ∃ t, searchable res.item k = some t ∧
      max 1 (query.length - options.lengthTolerance.getD 2) ≤ t.length ∧
      t.length ≤ query.length + options.lengthTolerance.getD 2 ∧
      (options.lengthTolerance.getD 2 = 0 → t.length = query.length) := by
  by_cases hq : query = ""
  · exfalso
    unfold performSearch at hres
    rw [hkey] at hres
    simp [hq] at hres
  by_cases hk : k = ""
  · exfalso
    unfold performSearch at hres
    rw [hkey] at hres
    simp [hq, hk] at hres
  cases hidx : indexOf dict k with
  | none =>
    exfalso
    unfold performSearch at hres
    rw [hkey] at hres
    simp [hq, hk, hidx] at hres
  | some g =>
    rw [mem_performSearch bg (indexOf dict) query options prev res k g hkey
      hq hk hidx] at hres
    rw [mem_gatherResults] at hres
    obtain ⟨len, h1, h2, r, hr, hs⟩ := hres
    rw [scoreRecord_eq_some] at hs
    obtain ⟨h, t, hh, hhne, hst, hth, heq⟩ := hs
    subst heq
    rw [buildIndex_bucket dict k len g hidx, List.mem_filter] at hr
    have hbp := hr.2
    simp only [bucketPred, hst, beq_iff_eq] at hbp
    rw [jsToLower_length] at h1 h2
    have hqpos : 0 < query.length := string_length_pos query hq
    exact ⟨t, hst, by omega, by omega, by omega⟩

/-- Witness for C3 on a concrete search with the default tolerance. -/
theorem C3_pruning_sound_witness :
    ∃ t, searchable (⟨some "ni3", some "N"⟩ : Rec) "pinyin" = some t ∧
      max 1 ("ni".length - 2) ≤ t.length ∧
      t.length ≤ "ni".length + 2 ∧
      (2 = 0 → t.length = "ni".length) := by
  have := C3_pruning_sound [⟨some "ni3", some "N"⟩] [] "ni"
    ⟨some "pinyin", none, none⟩ none ⟨⟨some "ni3", some "N"⟩, 1, 0⟩
    "pinyin" rfl
    (by rw [performSearch_eval_ni]; exact List.mem_singleton_self _)
  simpa using this

/-- C1 (amended): with a non-empty query and a recognized, indexed field,
`performSearch` returns exactly those records lying in the candidate buckets
that have a non-empty `hanzi` field and whose similarity score (computed as
`1 - levenshtein(lowercased query, normalized field) / max(qLen, |target|)`)
is at least the threshold; an empty query or an unrecognized field key gives
the empty result. -/
theorem C1_search_membership (dict : List Rec) (bg : Bigrams) (query : String)
    (options : SearchOptions) (prev : Option String) (k : String)
    (hkey : options.key = some k) :
    (query = "" → performSearch bg (indexOf dict) query options prev = []) ∧
    (indexOf dict k = none →
      performSearch bg (indexOf dict) query options prev = []) ∧
    (∀ g, indexOf dict k = some g → query ≠ "" →
      ∀ r : Rec,
        (∃ res ∈ performSearch bg (indexOf dict) query options prev,
          res.item = r) ↔
          ((∃ len,
              max 1 (query.length - options.lengthTolerance.getD 2) ≤ len ∧
              len ≤ query.length + options.lengthTolerance.getD 2 ∧
              r ∈ g len) ∧
            (∃ h, r.hanzi = some h ∧ h ≠ "") ∧
            (∃ t, searchable r k = some t ∧
              options.threshold.getD (3 / 5 : ℚ) ≤
                simScore (jsToLower query) t))) := by
  refine ⟨?_, ?_, ?_⟩
  · intro hq
    unfold performSearch
    rw [hkey]
    simp [hq]
  · intro hnone
    unfold performSearch
    rw [hkey]
    by_cases hq : query = ""
    · simp [hq]
    · by_cases hk : k = ""
      · simp [hq, hk]
      · simp [hq, hk, hnone]
  · intro g hg hq r
    have hk : k ≠ "" := by
      intro hke
      subst hke
      rw [show indexOf dict "" = none from rfl] at hg
      exact absurd hg (by simp)
    constructor
    · rintro ⟨res, hresmem, hitem⟩
      rw [mem_performSearch bg (indexOf dict) query options prev res k g hkey
        hq hk hg, mem_gatherResults] at hresmem
      obtain ⟨len, h1, h2, r1, hr1, hs⟩ := hresmem
      rw [scoreRecord_eq_some] at hs
      obtain ⟨h, t, hh, hhne, hst, hth, heq⟩ := hs
      subst heq
      cases hitem
      rw [jsToLower_length] at h1 h2
      exact ⟨⟨len, h1, h2, hr1⟩, ⟨h, hh, hhne⟩, ⟨t, hst, hth⟩⟩
    · rintro ⟨⟨len, hl1, hl2, hrg⟩, ⟨h, hh, hhne⟩, ⟨t, hst, hth⟩⟩
      refine ⟨⟨r, simScore (jsToLower query) t, bigramScoreOf bg prev h⟩,
        ?_, rfl⟩
      rw [mem_performSearch bg (indexOf dict) query options prev _ k g hkey
        hq hk hg, mem_gatherResults]
      refine ⟨len, ?_, ?_, r, hrg, ?_⟩
      · rw [jsToLower_length]; exact hl1
      · rw [jsToLower_length]; exact hl2
      · rw [scoreRecord_eq_some]
        exact ⟨h, t, hh, hhne, hst, hth, rfl⟩

/-- Counterexample to C1 as stated: a record with no `hanzi` field sits in a
candidate bucket and scores `1 ≥ 0.6`, yet `performSearch` omits it (the
claim asserts no in-range candidate meeting the threshold is omitted). -/
theorem C1_counterexample :
    (∃ g, indexOf [⟨some "ab", none⟩] "pinyin" = some g ∧
      (⟨some "ab", none⟩ : Rec) ∈ g 2) ∧
    max 1 ("ab".length - 2) ≤ 2 ∧ 2 ≤ "ab".length + 2 ∧
    (3 / 5 : ℚ) ≤ simScore (jsToLower "ab") "ab" ∧
    performSearch [] (indexOf [⟨some "ab", none⟩]) "ab"
      ⟨some "pinyin", none, none⟩ none = [] := by
  refine ⟨⟨(buildIndex [⟨some "ab", none⟩]).pinyin, rfl, by decide⟩,
    by decide, by decide, by with_unfolding_all decide, ?_⟩
  rw [performSearch_perm [] (indexOf [⟨some "ab", none⟩]) "ab"
    ⟨some "pinyin", none, none⟩ none "pinyin"
    ((buildIndex [⟨some "ab", none⟩]).pinyin) rfl (by decide) (by decide) rfl]
  have hg : gatherResults [] ((buildIndex [⟨some "ab", none⟩]).pinyin)
      "pinyin" (jsToLower "ab")
      ((SearchOptions.mk (some "pinyin") none none).threshold.getD ((3:ℚ)/5))
      ((SearchOptions.mk (some "pinyin") none none).lengthTolerance.getD 2)
      none = [] := by
    with_unfolding_all decide
  rw [hg, List.mergeSort_nil]

/-- Witness for the amended C1 on a concrete search: the indexed record is
reported as a member of the result set via the characterization. -/
theorem C1_search_membership_witness :
    ∃ res ∈ performSearch [] (indexOf [⟨some "ni3", some "N"⟩]) "ni"
      ⟨some "pinyin", none, none⟩ none,
      res.item = (⟨some "ni3", some "N"⟩ : Rec) := by
  have h := (C1_search_membership [⟨some "ni3", some "N"⟩] [] "ni"
    ⟨some "pinyin", none, none⟩ none "pinyin" rfl).2.2
    ((buildIndex [⟨some "ni3", some "N"⟩]).pinyin) rfl (by decide)
    ⟨some "ni3", some "N"⟩
  exact h.mpr ⟨⟨2, by decide, by decide, by decide⟩, ⟨"N", rfl, by decide⟩,
    ⟨"ni", by decide, by with_unfolding_all decide⟩⟩

/-- C4: the returned sequence is non-increasing in `score`; among equal
scores it is non-increasing in `bigramScore`; and the sort is stable —
results equal in both keys keep their order from the unsorted candidate
scan (bucket/insertion order). -/
theorem C4_result_ordering (bg : Bigrams)
    (searchIndex : String → Option LenIndex) (query : String)
    (options : SearchOptions) (prev : Option String) :
    (performSearch bg searchIndex query options prev).Pairwise
      (fun a b => b.score ≤ a.score ∧
        (a.score = b.score → b.bigramScore ≤ a.bigramScore)) ∧
    (∀ k lenIdx, options.key = some k → query ≠ "" → k ≠ "" →
      searchIndex k = some lenIdx →
      ∀ sc bsc : ℚ,
        (performSearch bg searchIndex query options prev).filter
          (fun r => decide (r.score = sc) && decide (r.bigramScore = bsc)) =
          (gatherResults bg lenIdx k (jsToLower query)
            (options.threshold.getD (3 / 5 : ℚ))
            (options.lengthTolerance.getD 2) prev).filter
            (fun r => decide (r.score = sc) &&
              decide (r.bigramScore = bsc))) := by
  constructor
  · have himp : ∀ {a b : SRes}, resLE a b = true →
        b.score ≤ a.score ∧
          (a.score = b.score → b.bigramScore ≤ a.bigramScore) := by
      intro a b hab
      simp only [resLE, Bool.or_eq_true, Bool.and_eq_true,
        decide_eq_true_eq] at hab
      rcases hab with h | ⟨h1, h2⟩
      · exact ⟨h.le, fun heq => absurd (heq ▸ h) (lt_irrefl _)⟩
      · exact ⟨h1.symm.le, fun _ => h2⟩
    unfold performSearch
    split
    · exact List.Pairwise.nil
    · split
      · exact List.Pairwise.nil
      · split
        · exact List.Pairwise.nil
        · split
          · exact List.Pairwise.nil
          · exact (List.sorted_mergeSort resLE_trans resLE_total _).imp himp
  · intro k lenIdx hkey hq hk hidx sc bsc
    rw [performSearch_perm bg searchIndex query options prev k lenIdx hkey
      hq hk hidx]
    set l := gatherResults bg lenIdx k (jsToLower query)
      (options.threshold.getD (3 / 5 : ℚ))
      (options.lengthTolerance.getD 2) prev with hl
    set p : SRes → Bool :=
      fun r => decide (r.score = sc) && decide (r.bigramScore = bsc) with hp
    have hallp : ∀ a ∈ l.filter p, p a = true := by
      intro a ha
      exact (List.mem_filter.mp ha).2
    have hall : ∀ a ∈ l.filter p, a.score = sc ∧ a.bigramScore = bsc := by
      intro a ha
      have := hallp a ha
      rw [hp] at this
      simpa using this
    have hpair : (l.filter p).Pairwise (fun a b => resLE a b) := by
      apply List.pairwise_of_forall_mem_list
      intro a ha b hb
      obtain ⟨ha1, ha2⟩ := hall a ha
      obtain ⟨hb1, hb2⟩ := hall b hb
      simp [resLE, ha1, hb1, ha2, hb2]
    have hsub2 : List.Sublist (l.filter p) (List.mergeSort l resLE) :=
      List.sublist_mergeSort resLE_trans resLE_total hpair
        (List.filter_sublist l)
    have h3 : (l.filter p).filter p = l.filter p :=
      List.filter_eq_self.mpr hallp
    have h4 : List.Sublist (l.filter p) ((List.mergeSort l resLE).filter p) := by
      have := hsub2.filter p
      rwa [h3] at this
    have h5 : List.Perm ((List.mergeSort l resLE).filter p) (l.filter p) :=
      (List.mergeSort_perm l resLE).filter p
    exact (h4.eq_of_length h5.length_eq.symm).symm

/-- Witness for C4's stability clause on a concrete search. -/
theorem C4_result_ordering_witness :
    (performSearch [] (indexOf [⟨some "ni3", some "N"⟩]) "ni"
      ⟨some "pinyin", none, none⟩ none).filter
      (fun r => decide (r.score = 1) && decide (r.bigramScore = 0)) =
      (gatherResults [] ((buildIndex [⟨some "ni3", some "N"⟩]).pinyin)
        "pinyin" (jsToLower "ni") (3 / 5 : ℚ) 2 none).filter
        (fun r => decide (r.score = 1) && decide (r.bigramScore = 0)) :=
  (C4_result_ordering [] (indexOf [⟨some "ni3", some "N"⟩]) "ni"
    ⟨some "pinyin", none, none⟩ none).2 "pinyin"
    ((buildIndex [⟨some "ni3", some "N"⟩]).pinyin) rfl (by decide)
    (by decide) rfl 1 0

/-- Concrete evaluation of a search carrying bigram context, used by the C5
witness: the context row for `"P"` assigns `1/2` to the record's hanzi. -/
theorem performSearch_eval_bigram :
    performSearch [("P", [("N", (1:ℚ)/2)])] (indexOf [⟨some "ni3", some "N"⟩])
      "ni" ⟨some "pinyin", none, none⟩ (some "P") =
      [⟨⟨some "ni3", some "N"⟩, 1, 1/2⟩] := by
  rw [performSearch_perm [("P", [("N", (1:ℚ)/2)])]
    (indexOf [⟨some "ni3", some "N"⟩]) "ni" ⟨some "pinyin", none, none⟩
    (some "P") "pinyin" ((buildIndex [⟨some "ni3", some "N"⟩]).pinyin) rfl
    (by decide) (by decide) rfl]
  have hg : gatherResults [("P", [("N", (1:ℚ)/2)])]
      ((buildIndex [⟨some "ni3", some "N"⟩]).pinyin) "pinyin" (jsToLower "ni")
      ((SearchOptions.mk (some "pinyin") none none).threshold.getD ((3:ℚ)/5))
      ((SearchOptions.mk (some "pinyin") none none).lengthTolerance.getD 2)
      (some "P") = [⟨⟨some "ni3", some "N"⟩, 1, 1/2⟩] := by
    with_unfolding_all decide
  rw [hg, List.mergeSort_singleton]

/-- Concrete evaluation for the C5 counterexample: the context string is
empty (falsy in JS), so the result's bigram score is `0` even though `""`
is a key of the table. -/
theorem performSearch_eval_emptyCtx :
    performSearch [("", [("X", (9:ℚ)/10)])] (indexOf [⟨some "ab", some "X"⟩])
      "ab" ⟨some "pinyin", none, none⟩ (some "") =
      [⟨⟨some "ab", some "X"⟩, 1, 0⟩] := by
  rw [performSearch_perm [("", [("X", (9:ℚ)/10)])]
    (indexOf [⟨some "ab", some "X"⟩]) "ab" ⟨some "pinyin", none, none⟩
    (some "") "pinyin" ((buildIndex [⟨some "ab", some "X"⟩]).pinyin) rfl
    (by decide) (by decide) rfl]
  have hg : gatherResults [("", [("X", (9:ℚ)/10)])]
      ((buildIndex [⟨some "ab", some "X"⟩]).pinyin) "pinyin" (jsToLower "ab")
      ((SearchOptions.mk (some "pinyin") none none).threshold.getD ((3:ℚ)/5))
      ((SearchOptions.mk (some "pinyin") none none).lengthTolerance.getD 2)
      (some "") = [⟨⟨some "ab", some "X"⟩, 1, 0⟩] := by
    with_unfolding_all decide
  rw [hg, List.mergeSort_singleton]

/-- C5 (amended): bigram augmentation. Every result's `bigramScore` is keyed
by the record's hanzi even when the match was on the pinyin field: when the
context string is non-null, NON-EMPTY and a key of the bigram table, the
score is the table row's entry for the hanzi (0 when absent); when the
context is null, empty, or not a key of the table, the score is 0. -/
theorem C5_bigram_augmentation (bg : Bigrams)
    (searchIndex : String → Option LenIndex) (query : String)
    (options : SearchOptions) (prev : Option String) (res : SRes)
    (hres : res ∈ performSearch bg searchIndex query options prev) :
    ∃ h, res.item.hanzi = some h ∧
      res.bigramScore = bigramScoreOf bg prev h ∧
      (prev = none → res.bigramScore = 0) ∧
      (prev = some "" → res.bigramScore = 0) ∧
      (∀ p, prev = some p → bigramRow bg p = none → res.bigramScore = 0) ∧
      (∀ p row, prev = some p → p ≠ "" → bigramRow bg p = some row →
        res.bigramScore = (List.lookup h row).getD 0) := by
  unfold performSearch at hres
  split at hres
  · simp at hres
  · split at hres
    · simp at hres
    · split at hres
      · simp at hres
      · split at hres
        · simp at hres
        · rw [List.mem_mergeSort, mem_gatherResults] at hres
          obtain ⟨len, _, _, r, hr, hs⟩ := hres
          rw [scoreRecord_eq_some] at hs
          obtain ⟨h, t, hh, hne, _, _, heq⟩ := hs
          subst heq
          refine ⟨h, hh, rfl, ?_, ?_, ?_, ?_⟩
          · intro hp
            simp [bigramScoreOf, hp]
          · intro hp
            simp [bigramScoreOf, hp]
          · intro p hp hrow
            simp [bigramScoreOf, hp, hrow]
          · intro p row hp hpne hrow
            simp [bigramScoreOf, hp, hpne, hrow]

/-- Counterexample to C5 as stated: with the non-null context string `""`,
which is a key of the bigram table, the claim demands the table entry
`9/10` for the matched record's hanzi, but the code treats the empty string
as no-context (it is falsy) and assigns bigram score `0`. -/
theorem C5_counterexample :
    (some "" : Option String) ≠ none ∧
    bigramRow [("", [("X", (9:ℚ)/10)])] "" = some [("X", (9:ℚ)/10)] ∧
    ¬ (∀ res ∈ performSearch [("", [("X", (9:ℚ)/10)])]
        (indexOf [⟨some "ab", some "X"⟩]) "ab"
        ⟨some "pinyin", none, none⟩ (some ""),
        res.bigramScore =
          ((res.item.hanzi.bind
            (fun h => List.lookup h [("X", (9:ℚ)/10)])).getD 0)) := by
  refine ⟨by simp, by with_unfolding_all decide, ?_⟩
  intro hcl
  have hmem : (⟨⟨some "ab", some "X"⟩, 1, 0⟩ : SRes) ∈
      performSearch [("", [("X", (9:ℚ)/10)])]
        (indexOf [⟨some "ab", some "X"⟩]) "ab"
        ⟨some "pinyin", none, none⟩ (some "") := by
    rw [performSearch_eval_emptyCtx]
    exact List.mem_singleton_self _
  have := hcl _ hmem
  exact absurd this (by with_unfolding_all decide)

/-- Witness for the amended C5 on a search with non-empty context present in
the table. -/
theorem C5_bigram_augmentation_witness :
    ∃ h, (SRes.mk ⟨some "ni3", some "N"⟩ 1 (1/2)).item.hanzi = some h ∧
      (SRes.mk ⟨some "ni3", some "N"⟩ 1 (1/2)).bigramScore =
        bigramScoreOf [("P", [("N", (1:ℚ)/2)])] (some "P") h ∧
      ((some "P" : Option String) = none →
        (SRes.mk ⟨some "ni3", some "N"⟩ 1 (1/2)).bigramScore = 0) ∧
      ((some "P" : Option String) = some "" →
        (SRes.mk ⟨some "ni3", some "N"⟩ 1 (1/2)).bigramScore = 0) ∧
      (∀ p, (some "P" : Option String) = some p →
        bigramRow [("P", [("N", (1:ℚ)/2)])] p = none →
        (SRes.mk ⟨some "ni3", some "N"⟩ 1 (1/2)).bigramScore = 0) ∧
      (∀ p row, (some "P" : Option String) = some p → p ≠ "" →
        bigramRow [("P", [("N", (1:ℚ)/2)])] p = some row →
        (SRes.mk ⟨some "ni3", some "N"⟩ 1 (1/2)).bigramScore =
          (List.lookup h row).getD 0) :=
  C5_bigram_augmentation [("P", [("N", (1:ℚ)/2)])]
    (indexOf [⟨some "ni3", some "N"⟩]) "ni" ⟨some "pinyin", none, none⟩
    (some "P") ⟨⟨some "ni3", some "N"⟩, 1, 1/2⟩
    (by rw [performSearch_eval_bigram]; exact List.mem_singleton_self _)

/-- C2: request correlation in `TypoAPI`. A `search` call allocates the
current counter value as its `searchId` — so ids strictly increase across
calls and a pending id is never reallocated — stores its resolver in
`pendingSearches` before the message is posted, and bumps the counter.
When a `search_results` message arrives, if its id is pending then exactly
that resolver is invoked with exactly that message's results and exactly
that entry is removed (counter and other entries untouched); if the id is
not pending the message is discarded with no state change. -/
theorem C2_correlation (ρ : Type) (s : ClientState ρ) (resolve : ρ)
    (results : List SRes) (searchId : Nat) (hwf : ClientWF s) :
    ((clientSearch s resolve).2 = s.searchIdCounter ∧
      (clientSearch s resolve).1.searchIdCounter = s.searchIdCounter + 1 ∧
      mapGet s.pendingSearches (clientSearch s resolve).2 = none ∧
      mapGet (clientSearch s resolve).1.pendingSearches
        (clientSearch s resolve).2 = some resolve ∧
      ClientWF (clientSearch s resolve).1) ∧
    (∀ cb, mapGet s.pendingSearches searchId = some cb →
      (handleSearchResult s results searchId).2 = some (cb, results) ∧
      mapGet (handleSearchResult s results searchId).1.pendingSearches
        searchId = none ∧
      (∀ j, j ≠ searchId →
        mapGet (handleSearchResult s results searchId).1.pendingSearches j =
          mapGet s.pendingSearches j) ∧
      (handleSearchResult s results searchId).1.searchIdCounter =
        s.searchIdCounter ∧
      ClientWF (handleSearchResult s results searchId).1) ∧
    (mapGet s.pendingSearches searchId = none →
      handleSearchResult s results searchId = (s, none)) := by
  have hfresh : ∀ p ∈ s.pendingSearches, p.1 ≠ s.searchIdCounter :=
    fun p hp => Nat.ne_of_lt (hwf.1 p hp)
  have hset : mapSet s.pendingSearches s.searchIdCounter resolve =
      s.pendingSearches ++ [(s.searchIdCounter, resolve)] :=
    mapSet_fresh _ _ _ hfresh
  refine ⟨⟨rfl, rfl, mapGet_none_of_forall _ _ hfresh, ?_, ?_, ?_⟩, ?_, ?_⟩
  · show mapGet (mapSet s.pendingSearches s.searchIdCounter resolve)
      s.searchIdCounter = some resolve
    rw [hset]
    exact mapGet_append_single _ _ _ (mapGet_none_of_forall _ _ hfresh)
  · show ∀ p ∈ mapSet s.pendingSearches s.searchIdCounter resolve,
      p.1 < s.searchIdCounter + 1
    rw [hset]
    intro p hp
    rcases List.mem_append.mp hp with h | h
    · have := hwf.1 p h
      omega
    · rcases List.mem_singleton.mp h with rfl
      omega
  · show ((mapSet s.pendingSearches s.searchIdCounter resolve).map
      Prod.fst).Nodup
    rw [hset, List.map_append]
    rw [List.nodup_append]
    refine ⟨hwf.2, by simp, ?_⟩
    intro a ha
    simp only [List.map_cons, List.map_nil, List.mem_singleton]
    intro hb
    subst hb
    obtain ⟨p, hp, hpa⟩ := List.mem_map.mp ha
    exact hfresh p hp hpa
  · intro cb hcb
    unfold handleSearchResult
    rw [hcb]
    exact ⟨rfl, mapGet_mapDelete_self _ _ hwf.2,
      fun j hj => mapGet_mapDelete_ne _ _ _ hj, rfl,
      mapDelete_wf s searchId hwf⟩
  · intro hnone
    unfold handleSearchResult
    rw [hnone]

/-- Witness for C2 at a concrete client state with one pending request. -/
theorem C2_correlation_witness :
    (clientSearch (ClientState.mk [(0, "r0")] 1) "r1").2 = 1 ∧
    mapGet (clientSearch (ClientState.mk [(0, "r0")] 1)
      "r1").1.pendingSearches 1 = some "r1" :=
  ⟨(C2_correlation String ⟨[(0, "r0")], 1⟩ "r1" [] 0
      (by constructor <;> decide)).1.1,
    (C2_correlation String ⟨[(0, "r0")], 1⟩ "r1" [] 0
      (by constructor <;> decide)).1.2.2.2.1⟩

theorem performSearch_uninitialized (bg : Bigrams) (q : String)
    (opts : SearchOptions) (prev : Option String) :
    performSearch bg (fun _ => none) q opts prev = [] := by
  unfold performSearch
  cases opts.key <;> simp

theorem runWorker_append (s : WorkerState) (ms1 ms2 : List InMsg) :
    runWorker s (ms1 ++ ms2) =
      ((runWorker (runWorker s ms1).1 ms2).1,
        (runWorker s ms1).2 ++ (runWorker (runWorker s ms1).1 ms2).2) := by
  induction ms1 generalizing s with
  | nil => simp [runWorker]
  | cons m ms ih =>
    show runWorker s (m :: (ms ++ ms2)) = _
    simp only [runWorker]
    rw [ih (stepMsg s m).1]
    simp [List.append_assoc, runWorker]

theorem runWorker_no_init (msgs : List InMsg)
    (hno : ∀ m ∈ msgs, ¬ isOkInit m) :
    (runWorker initialWorker msgs).1 = initialWorker := by
  induction msgs with
  | nil => rfl
  | cons m ms ih =>
    have hm := hno m (List.mem_cons_self _ _)
    have hms : ∀ x ∈ ms, ¬ isOkInit x :=
      fun x hx => hno x (List.mem_cons_of_mem _ hx)
    have hstep : (stepMsg initialWorker m).1 = initialWorker := by
      cases m with
      | init outcome =>
        cases outcome with
        | ok p => exact absurd trivial hm
        | error e => rfl
      | search q opts prev id => rfl
    show (runWorker (stepMsg initialWorker m).1 ms).1 = initialWorker
    rw [hstep]
    exact ih hms

/-- C8 (amended): the dispatcher has no already-initialized guard: every
`init` message, including a second one received while initialized,
unconditionally re-runs the load-and-index sequence, replacing the
dictionary, the bigram table and the search index with ones built from the
newly delivered data, and posts `init_success` again (or `init_error` on a
failed load, which leaves the state unchanged). -/
theorem C8_init_not_guarded (s : WorkerState) (d : List Rec) (bgt : Bigrams)
    (e : String) :
    stepMsg s (.init (.ok (d, bgt))) =
      (⟨d, bgt, getGroup (buildIndex d)⟩, [.initSuccess]) ∧
    stepMsg s (.init (.error e)) = (s, [.initError e]) :=
  ⟨rfl, rfl⟩

/-- Counterexample to C8 as stated: a second successful `init` is neither
rejected nor a no-op — it answers `init_success` again and replaces the
previously loaded dictionary, so the load-and-index sequence ran twice. -/
theorem C8_counterexample :
    (runWorker initialWorker
      [.init (.ok ([⟨some "a", some "A"⟩], [])),
        .init (.ok ([⟨some "b", some "B"⟩], []))]).2 =
      [.initSuccess, .initSuccess] ∧
    (runWorker initialWorker
      [.init (.ok ([⟨some "a", some "A"⟩], [])),
        .init (.ok ([⟨some "b", some "B"⟩], []))]).1.dictionary =
      [⟨some "b", some "B"⟩] ∧
    (runWorker initialWorker
      [.init (.ok ([⟨some "a", some "A"⟩], []))]).1.dictionary =
      [⟨some "a", some "A"⟩] ∧
    ([⟨some "b", some "B"⟩] : List Rec) ≠ [⟨some "a", some "A"⟩] :=
  ⟨rfl, rfl, rfl, by decide⟩

/-- C9 (amended): a `search` received before any successful `init` is
answered immediately and normally: the engine posts an ordinary
`search_results` message echoing the `searchId` with an empty result list.
It is not silently dropped, but it is neither queued nor answered with a
distinct not-ready error. -/
theorem C9_search_before_init (msgs : List InMsg)
    (hno : ∀ m ∈ msgs, ¬ isOkInit m) (q : String) (opts : SearchOptions)
    (prev : Option String) (id : Nat) :
    (runWorker initialWorker
        (msgs ++ [InMsg.search q opts prev id])).2 =
      (runWorker initialWorker msgs).2 ++
        [OutMsg.searchResults [] id] := by
  rw [runWorker_append, runWorker_no_init msgs hno]
  have h1 : (runWorker initialWorker [InMsg.search q opts prev id]).2 =
      [OutMsg.searchResults [] id] := by
    show (stepMsg initialWorker (InMsg.search q opts prev id)).2 ++ [] = _
    simp [stepMsg, initialWorker, performSearch_uninitialized]
  rw [h1]

/-- Counterexample to C9 as stated: the very first message being a `search`
(no `init` yet) is answered with an ordinary successful `search_results`
(empty results), not queued and not answered with a not-ready error. -/
theorem C9_counterexample :
    (runWorker initialWorker
        [InMsg.search "ni" ⟨some "pinyin", none, none⟩ none 0]).2 =
      [OutMsg.searchResults [] 0] := by
  show (stepMsg initialWorker
    (InMsg.search "ni" ⟨some "pinyin", none, none⟩ none 0)).2 ++ [] = _
  simp [stepMsg, initialWorker, performSearch_uninitialized]

/-- Witness for the amended C9: a failed `init` followed by a `search`. -/
theorem C9_search_before_init_witness :
    (runWorker initialWorker [InMsg.init (Except.error "boom"),
        InMsg.search "ni" ⟨some "pinyin", none, none⟩ none 7]).2 =
      (runWorker initialWorker [InMsg.init (Except.error "boom")]).2 ++
        [OutMsg.searchResults [] 7] :=
  C9_search_before_init [InMsg.init (Except.error "boom")]
    (by
      intro m hm
      rcases List.mem_singleton.mp hm with rfl
      simp [isOkInit])
    "ni" ⟨some "pinyin", none, none⟩ none 7
